import Mathlib

/-!
Verification of the batch-ingestion core of a point-of-sale analytics
pipeline.  The Python source (pipeline/etl.py, pipeline/run_all.py,
observer/handler.py) is shallowly embedded below: pure helpers become Lean
functions, pandas tables become lists of records, and effectful code
(database merges, the filesystem trigger handler, the stage orchestrator)
is modelled by explicit result values and action traces.  External
inputs that the code only reads (the costing workbook, the previously
stored history table) are passed in as explicit parameters.
-/

/-! ## String helpers shared by the embedded functions -/

/-- Uppercase a string, ASCII-wise (models Python `str.upper` on the
ASCII inputs this pipeline handles). -/
def upperAscii (s : String) : List Char :=
  s.data.map Char.toUpper

/-- `sub.isPrefixOf l` style occurrence test: does `sub` occur as a
contiguous substring of `l`?  Models Python's `sub in s`. -/
def containsSub (sub : List Char) : List Char → Bool
  | [] => sub.isEmpty
  | c :: rest => sub.isPrefixOf (c :: rest) || containsSub sub rest

/-- Characters the regexes `[A-Z0-9]+` match after uppercasing. -/
def isTokenChar (c : Char) : Bool :=
  ('A' ≤ c && c ≤ 'Z') || ('0' ≤ c && c ≤ '9')

/-- Word characters for the purposes of the `\b` anchors in the source
regexes (`[A-Za-z0-9_]`). -/
def isWordChar (c : Char) : Bool :=
  ('A' ≤ c && c ≤ 'Z') || ('a' ≤ c && c ≤ 'z') || ('0' ≤ c && c ≤ '9') || c = '_'

/-- Maximal runs of characters satisfying `p`, in order (separator
characters are dropped).  Used both for `re.findall` of a character
class and for whole-word (`\b…\b`) membership tests. -/
def splitRunsGo (p : Char → Bool) : List Char → List Char → List (List Char)
  | cur, [] => if cur.isEmpty then [] else [cur.reverse]
  | cur, c :: rest =>
    if p c then splitRunsGo p (c :: cur) rest
    else if cur.isEmpty then splitRunsGo p [] rest
    else cur.reverse :: splitRunsGo p [] rest

def splitRuns (p : Char → Bool) (l : List Char) : List (List Char) :=
  splitRunsGo p [] l

/-- Python `str.split()` with no argument: whitespace-separated tokens. -/
def pySplit (l : List Char) : List (List Char) :=
  splitRuns (fun c => !c.isWhitespace) l

/-- Python `str.strip()`. -/
def pyStrip (l : List Char) : List Char :=
  ((l.dropWhile Char.isWhitespace).reverse.dropWhile Char.isWhitespace).reverse

/-! ## Category inference (etl.py `infer_category` and its module-level
trigger tables) -/

/-- etl.py `drink_keywords`. -/
def drink_keywords : List (List Char) :=
  ["ICED", "ICE", "HOT", "8OZ", "12OZ", "16OZ", "COLD",
   "TEA", "LATTE", "SHAKE", "FRAPPE", "MOCHA", "GLASS", "PITCHER", "WATER"].map String.data

/-- The OTHERS trigger test of `infer_category`:
`others_triggers = ["CHARGING"]` is a substring test and
`others_word_regex = \\bTAKE\\b` a whole-word test; a `\\bW\\b` match of an
alphanumeric word `W` is exactly an occurrence of `W` as a maximal
word-character run.  `u` is the uppercased name. -/
def othersHit (u : List Char) : Bool :=
  containsSub "CHARGING".data u || (splitRuns isWordChar u).contains "TAKE".data

/-- The EXTRA trigger test of `infer_category`: the two
`extra_phrase_triggers` are substring tests, the three
`extra_word_triggers` (`\\bEGG\\b`, `\\bDIJON\\b`, `\\bEXTRA\\b`) whole-word
tests. -/
def extraHit (u : List Char) : Bool :=
  containsSub "BOTTLED WATER".data u || containsSub "PLAIN RICE".data u
    || (splitRuns isWordChar u).contains "EGG".data
    || (splitRuns isWordChar u).contains "DIJON".data
    || (splitRuns isWordChar u).contains "EXTRA".data

/-- Does any `[A-Z0-9]+` token of the uppercased name belong to
`drink_keywords`? -/
def drinkTokenHit (u : List Char) : Bool :=
  (splitRuns isTokenChar u).any fun t => drink_keywords.contains t

/-- Does the uppercased product id contain one of the two drink-id
markers (`"DRNKS" in upid or "DKS" in upid`)? -/
def drinkIdHit (upid : List Char) : Bool :=
  containsSub "DRNKS".data upid || containsSub "DKS".data upid

/-- etl.py `infer_category`.  The `DRNKS`/`DKS` product-id override is
applied only on the fall-through (DRINK/FOOD) branch, exactly as in the
source, where the `OTHERS` and `EXTRA` branches return early. -/
def infer_category (product_name product_id : String) : String :=
  let u := upperAscii product_name
  if othersHit u then "OTHERS"
  else if extraHit u then "EXTRA"
  else
    let base := if drinkTokenHit u then "DRINK" else "FOOD"
    if drinkIdHit (upperAscii product_id) then "DRINK" else base

/-- The category function as the spec's section 4.4 sentence describes
it: the name-based result first, then an unconditional override to
DRINK when the product id carries a drink marker, "regardless of the
name-based result". -/
def categorySpecClaimed (product_name product_id : String) : String :=
  let u := upperAscii product_name
  let nameBased :=
    if othersHit u then "OTHERS"
    else if extraHit u then "EXTRA"
    else if drinkTokenHit u then "DRINK"
    else "FOOD"
  if drinkIdHit (upperAscii product_id) then "DRINK" else nameBased

/-- The amended description: same name-based rules, but the drink-id
override only replaces a name-based result of DRINK or FOOD; the OTHERS
and EXTRA branches are unaffected by the product id. -/
def categorySpecAmended (product_name product_id : String) : String :=
  let u := upperAscii product_name
  let nameBased :=
    if othersHit u then "OTHERS"
    else if extraHit u then "EXTRA"
    else if drinkTokenHit u then "DRINK"
    else "FOOD"
  if (nameBased = "DRINK" || nameBased = "FOOD") && drinkIdHit (upperAscii product_id) then
    "DRINK"
  else nameBased

/-! ## Parent SKU (etl.py `compute_parent_sku`)

The two regexes of the source are implemented as explicit scanners over
the character list, with the `\b` anchors tracked via a "previous
character was a word character" flag.  In both regexes the alternatives
`(8|12|16)` are mutually exclusive at any position, so no backtracking
across alternatives is needed. -/

/-- Match the regex group `(8|12|16)` at the head of the list,
returning the matched digits and the rest. -/
def matchNum : List Char → Option (List Char × List Char)
  | '8' :: rest => some (['8'], rest)
  | '1' :: '2' :: rest => some (['1', '2'], rest)
  | '1' :: '6' :: rest => some (['1', '6'], rest)
  | _ => none

/-- Is there a `\b` boundary between a word character and the head of
`r` (i.e. is the head missing or a non-word character)? -/
def boundaryAfterWord (r : List Char) : Bool :=
  match r with
  | [] => true
  | d :: _ => !isWordChar d

/-- Try the pattern `(8|12|16)0Z\b` at the head (the leading `\b` is
checked by the caller).  On success returns the replacement text
(`group(1) + "OZ"`) and the remainder of the input. -/
def tryMatchNumZeroZ (l : List Char) : Option (List Char × List Char) :=
  match matchNum l with
  | some (num, '0' :: 'Z' :: r2) =>
    if boundaryAfterWord r2 then some (num ++ ['O', 'Z'], r2) else none
  | _ => none

/-- `re.sub(r"\b(8|12|16)0Z\b", lambda m: m.group(1) + "OZ", work)`:
left-to-right scan, non-overlapping matches, scanning resumes after each
match.  The fuel argument starts at the input length; every step
consumes at least one character, so the fuel never runs out. -/
def subNumZeroZGo : Nat → Bool → List Char → List Char
  | 0, _, l => l
  | _ + 1, _, [] => []
  | n + 1, prevW, c :: rest =>
    match (if prevW then none else tryMatchNumZeroZ (c :: rest)) with
    | some (rep, r2) => rep ++ subNumZeroZGo n true r2
    | none => c :: subNumZeroZGo n (isWordChar c) rest

def subNumZeroZ (l : List Char) : List Char :=
  subNumZeroZGo l.length false l

/-- Try `size_pattern = \b(8|12|16)\s*(?:O|0)Z\.?(?=\b)` at the head
(leading `\b` checked by the caller).  Returns the word-character status
of the last consumed character together with the remainder.  The greedy
`\s*` needs no backtracking because neither `O` nor `0` is whitespace;
the optional `\.` backtracks to an empty match when the lookahead fails
after consuming the dot. -/
def tryMatchSize (l : List Char) : Option (Bool × List Char) :=
  match matchNum l with
  | some (_, r1) =>
    (match r1.dropWhile Char.isWhitespace with
     | 'O' :: 'Z' :: r2 =>
       (match r2 with
        | '.' :: r3 => if (match r3 with | d :: _ => isWordChar d | [] => false)
                       then some (false, r3) else some (true, '.' :: r3)
        | _ => if boundaryAfterWord r2 then some (true, r2) else none)
     | '0' :: 'Z' :: r2 =>
       (match r2 with
        | '.' :: r3 => if (match r3 with | d :: _ => isWordChar d | [] => false)
                       then some (false, r3) else some (true, '.' :: r3)
        | _ => if boundaryAfterWord r2 then some (true, r2) else none)
     | _ => none)
  | none => none

/-- Combined `size_pattern.search` / `size_pattern.sub("", ·)` scan:
returns whether any match was found, and the input with every match
deleted. -/
def sizeScanGo : Nat → Bool → List Char → Bool × List Char
  | 0, _, l => (false, l)
  | _ + 1, _, [] => (false, [])
  | n + 1, prevW, c :: rest =>
    match (if prevW then none else tryMatchSize (c :: rest)) with
    | some (lastW, r2) => (true, (sizeScanGo n lastW r2).2)
    | none =>
      let out := sizeScanGo n (isWordChar c) rest
      (out.1, c :: out.2)

def sizeScan (l : List Char) : Bool × List Char :=
  sizeScanGo l.length false l

/-- The trigger token set of `compute_parent_sku`. -/
def skuTriggers : List (List Char) :=
  ["ICED", "ICE", "HOT", "COLD"].map String.data

/-- etl.py `compute_parent_sku`. -/
def compute_parent_sku (name : String) : String :=
  if pyStrip name.data = [] then "" else
  let original := pyStrip (upperAscii name)
  let work0 := original.map (fun c => if c = '.' then ' ' else c)
  let work1 := subNumZeroZ work0
  let scanned := sizeScan work1
  let hasTrigger := (pySplit work1).any (fun t => skuTriggers.contains t) || scanned.1
  let tokens :=
    if hasTrigger then
      let toks := (pySplit scanned.2).filter
        (fun t => !skuTriggers.contains t && t ≠ "OZ".data)
      let toks := toks.filter (fun t => !([['8'], ['1', '2'], ['1', '6']].contains t))
      if toks.isEmpty then pySplit original else toks
    else pySplit original
  let tokens := (tokens.reverse.dropWhile (fun t => [['1'], ['2'], ['3']].contains t)).reverse
  String.intercalate "-" (tokens.map fun t => String.mk t)

/-! ## Product cost (etl.py `calculate_product_cost`)

`get_drink_cost` reads an external costing workbook; it is modelled as
an explicit lookup parameter `costLookup : String → Option ℚ` (`none`
models both "no match" and a lookup failure, which the source converts
to `None`).  Prices are modelled as rationals; a `none` price models a
null (`NaN`) price. -/

/-- Python's bankers rounding `round(x)` on the exact rational value:
round half to even. -/
def roundHalfEven (q : ℚ) : ℤ :=
  let f := ⌊q⌋
  if q - f < 1 / 2 then f
  else if 1 / 2 < q - f then f + 1
  else if f % 2 = 0 then f else f + 1

/-- Python `round(x, 2)` on the exact rational value. -/
def round2 (q : ℚ) : ℚ :=
  (roundHalfEven (q * 100) : ℚ) / 100

/-- etl.py `calculate_product_cost`.  The source's `if cost:` is Python
truthiness: both `None` and a cost of exactly `0` fall through to the
60% fallback. -/
def calculate_product_cost (costLookup : String → Option ℚ)
    (product_name category : String) (price : Option ℚ) : Option ℚ :=
  let fallback : Option ℚ :=
    match price with
    | some p => some (round2 (p * (60 / 100)))
    | none => none
  if category = "DRINK" then
    match costLookup product_name with
    | some c => if c ≠ 0 then some c else fallback
    | none => fallback
  else fallback

/-! ## Product dimension data model

One historical state of a product, as stored in
`history_product_dimension` and produced by both dimension builders.
Timestamps are modelled as naturals (`none` models a null / `NaT`
value): only their order matters to the embedded code. -/

structure ProductVersion where
  product_id : String
  product_name : String
  price : ℚ
  record_version : Nat
  is_current : Bool
  last_transaction_datetime : Option Nat
  parent_sku : String
  category : String
  product_cost : Option ℚ
deriving DecidableEq, Repr

/-- One batch-latest row of the new batch handed to the incremental
builder: the loop body reads exactly these fields (`product_id` and
`Price` are non-null there, since the builder drops null ones). -/
structure BatchRow where
  product_id : String
  product_name : String
  price : ℚ
  datetime : Option Nat
deriving DecidableEq, Repr

/-! ## Incremental dimension builder
(etl.py `create_product_dimensions_incremental`) -/

/-- pandas `idxmax` row selection on `record_version`: the first row
attaining the maximum, `none` on an empty frame. -/
def firstMaxRv : List ProductVersion → Option ProductVersion
  | [] => none
  | v :: rest =>
    match firstMaxRv rest with
    | none => some v
    | some w => if w.record_version > v.record_version then some w else some v

/-- The source's current-version selection: the first row flagged
`is_current`, else the first row with the maximal `record_version`;
`none` exactly when the fetched history is empty (the source checks
`existing_pid.empty` before selecting). -/
def selectCurrent (existing : List ProductVersion) : Option ProductVersion :=
  match existing.filter (fun v => v.is_current) with
  | c :: _ => some c
  | [] => firstMaxRv existing

/-- `int(existing_pid["record_version"].max())` (the source only
evaluates this on a non-empty history). -/
def maxRv (existing : List ProductVersion) : Nat :=
  existing.foldl (fun a v => max a v.record_version) 0

/-- The source's timestamp-advance condition:
`if new_datetime and (not old_datetime or pd.isna(old_datetime) or new_datetime > old_datetime)`. -/
def advanceDT (old : Option Nat) (new : Option Nat) : Option Nat :=
  match new with
  | none => old
  | some n =>
    match old with
    | none => some n
    | some o => if n > o then some n else old

/-- The brand-new / price-changed history row of the incremental loop
body: all derived fields recomputed from the new name and price. -/
def newProductVersion (costLookup : String → Option ℚ) (r : BatchRow) (rv : Nat) :
    ProductVersion :=
  let category := infer_category r.product_name r.product_id
  ⟨r.product_id, r.product_name, r.price, rv, true, r.datetime,
   compute_parent_sku r.product_name, category,
   calculate_product_cost costLookup r.product_name category (some r.price)⟩

/-- The `updated_hist` row of the price-unchanged case: the stored
current version with `is_current` (re)set to true and
`last_transaction_datetime` possibly advanced. -/
def updatedCurrent (cur : ProductVersion) (r : BatchRow) : ProductVersion :=
  { cur with
    is_current := true
    last_transaction_datetime := advanceDT cur.last_transaction_datetime r.datetime }

/-- The `old_cur` row of the price-changed case: the stored current
version with only `is_current` flipped to false. -/
def retiredCurrent (cur : ProductVersion) : ProductVersion :=
  { cur with is_current := false }

/-- The loop body of `create_product_dimensions_incremental` for one
batch-latest row `r`, given the fetched prior history rows `existing`
of `r`'s product.  Returns the rows this iteration appends to
`history_rows` and to `current_rows` (in order). -/
def processBatchRow (costLookup : String → Option ℚ)
    (existing : List ProductVersion) (r : BatchRow) :
    List ProductVersion × List ProductVersion :=
  match selectCurrent existing with
  | none =>
    -- CASE 1: brand new product (no history).
    let v := newProductVersion costLookup r 1
    ([v], [v])
  | some cur =>
    if r.price = cur.price then
      -- Price unchanged: possibly advance last_transaction_datetime.
      let hist := updatedCurrent cur r
      let curOut : ProductVersion :=
        ⟨r.product_id, r.product_name, cur.price, cur.record_version, true,
         hist.last_transaction_datetime, cur.parent_sku, cur.category, cur.product_cost⟩
      ([hist], [curOut])
    else
      -- Price changed: retire the old current version, append a new one.
      let newV := newProductVersion costLookup r (maxRv existing + 1)
      ([retiredCurrent cur, newV], [newV])

/-- `create_product_dimensions_incremental` over the batch-latest rows
(one per product): the fetched history is supplied by `fetchHistory`
(modelling `loader.fetch_history_for_products` restricted to one
product id).  Returns `(current_rows, history_rows)` in loop order. -/
def create_product_dimensions_incremental (costLookup : String → Option ℚ)
    (fetchHistory : String → List ProductVersion)
    (batchLatest : List BatchRow) : List ProductVersion × List ProductVersion :=
  batchLatest.foldl
    (fun acc r =>
      let hc := processBatchRow costLookup (fetchHistory r.product_id) r
      (acc.1 ++ hc.2, acc.2 ++ hc.1))
    ([], [])

/-! ## Full-rebuild dimension builder
(etl.py `create_product_dimensions_full`)

The transform-stage table is modelled with the columns the builder
reads: `Product ID`, `Product Name`, `Price`, `DateTime` (the
`DateTime` branch of the column selection; `DateTime` cells may be null
after an unparsable date/time concatenation). -/

structure CombinedRow where
  product_id : String
  product_name : String
  price : ℚ
  datetime : Option Nat
deriving DecidableEq, Repr

/-- Distinct values in order of first appearance. -/
def dedupFirst : List String → List String
  | [] => []
  | x :: xs => x :: (dedupFirst xs).filter (fun y => y ≠ x)

/-- The last non-null entry of an optional column, as pandas
`GroupBy.last` computes it. -/
def lastSome (l : List (Option Nat)) : Option Nat :=
  l.foldl (fun acc o => match o with | some x => some x | none => acc) acc₀
where acc₀ : Option Nat := none

/-- The current-dimension half of `create_product_dimensions_full`:
`df.groupby("product_id").last()` takes, per product and per column,
the last non-null entry of that column within the group (for the
never-null name and price columns this is the literal last row; for the
nullable `DateTime` column it is the last non-null timestamp), then
`record_version = 1`, `is_current = True` and the derived fields are
attached. -/
def create_product_dimensions_full_current (costLookup : String → Option ℚ)
    (rows : List CombinedRow) : List ProductVersion :=
  (dedupFirst (rows.map (fun r => r.product_id))).filterMap fun pid =>
    let g := rows.filter (fun r => r.product_id = pid)
    g.getLast?.map fun last =>
      let pname := last.product_name
      let category := infer_category pname pid
      ⟨pid, pname, last.price, 1, true, lastSome (g.map (fun r => r.datetime)),
       compute_parent_sku pname, category,
       calculate_product_cost costLookup pname category (some last.price)⟩

/-- `drop_duplicates(subset=["product_id", "product_name", "Price"])`:
keep a row exactly when no earlier row has the same
`(product_id, product_name, Price)` triple; `seen` holds the rows
already kept or skipped past. -/
def dedupTriplesGo (seen : List CombinedRow) : List CombinedRow → List CombinedRow
  | [] => []
  | r :: rs =>
    if seen.any (fun s => s.product_id = r.product_id
        ∧ s.product_name = r.product_name ∧ s.price = r.price) then
      dedupTriplesGo seen rs
    else r :: dedupTriplesGo (seen ++ [r]) rs

def dedupTriples (l : List CombinedRow) : List CombinedRow :=
  dedupTriplesGo [] l

/-- `groupby("product_id").cumcount() + 1` over an already-deduplicated
frame: each row is numbered by how many same-product rows precede it,
plus one.  `seen` accumulates the rows already numbered. -/
def cumcountGo (seen : List CombinedRow) :
    List CombinedRow → List (CombinedRow × Nat)
  | [] => []
  | r :: rs =>
    (r, (seen.filter (fun s => s.product_id = r.product_id)).length + 1)
      :: cumcountGo (seen ++ [r]) rs

/-- One output row of the full-rebuild history: the deduplicated row
`rv.1` with its cumcount version `rv.2`, flagged current exactly when
its version is the maximal version of its product among `numbered`,
plus the derived fields. -/
def buildHistRow (costLookup : String → Option ℚ)
    (numbered : List (CombinedRow × Nat)) (rv : CombinedRow × Nat) : ProductVersion :=
  let r := rv.1
  let maxv := (numbered.filter fun p => p.1.product_id = r.product_id).foldl
    (fun a p => max a p.2) 0
  let category := infer_category r.product_name r.product_id
  ⟨r.product_id, r.product_name, r.price, rv.2, rv.2 = maxv, r.datetime,
   compute_parent_sku r.product_name, category,
   calculate_product_cost costLookup r.product_name category (some r.price)⟩

/-- The history half of `create_product_dimensions_full`: distinct
`(product_id, product_name, Price)` rows, version-numbered per product
in order of first appearance, with `is_current` set exactly on the
maximal version of each product, and derived fields attached. -/
def create_product_dimensions_full_history (costLookup : String → Option ℚ)
    (rows : List CombinedRow) : List ProductVersion :=
  let numbered := cumcountGo [] (dedupTriples rows)
  numbered.map (buildHistRow costLookup numbered)

/-! ## Transform-stage row filtering for the product-level table
(etl.py `transform`, the sales-by-product cleaning block)

A table is modelled by column-presence flags plus one record per row.
A `none` cell models a null value.  The numeric cells are modelled as
the value `pd.to_numeric(·, errors="coerce")` yields: `none` for
null/non-coercible, `some q` for a numeric value — the source's filter
masks are computed from exactly these coerced values. -/

structure ProdRow where
  date : Option String
  time : Option String
  price : Option ℚ
  qty : Option ℚ
  lineTotal : Option ℚ
  netTotal : Option ℚ
deriving DecidableEq, Repr

structure ProdTable where
  hasDate : Bool
  hasTime : Bool
  hasPrice : Bool
  hasQty : Bool
  hasLineTotal : Bool
  hasNetTotal : Bool
  rows : List ProdRow
deriving DecidableEq, Repr

/-- A non-null, non-blank cell (`col.notna() & (col.astype(str).str.strip() != "")`). -/
def presentNonBlank (c : Option String) : Bool :=
  match c with
  | some s => pyStrip s.data ≠ []
  | none => false

/-- A numeric cell satisfying a predicate; a null/non-numeric cell
fails the mask (`NaN` compares false). -/
def numericSat (p : ℚ → Bool) (c : Option ℚ) : Bool :=
  match c with
  | some q => p q
  | none => false

/-- The row-filtering part of `transform` applied to the sales-by-product
table, with the source's exact structure: the `Date` filter runs when a
`Date` column exists; the `Time` filter, the `[0, 50000]` price window
and the four non-negativity filters (in the order
`Qty`, `Line Total`, `Net Total`, `Price`) all live inside the
`if "Time" in columns` block and run only when the respective column
exists. -/
def transformProductFilter (t : ProdTable) : ProdTable :=
  let rows1 :=
    if t.hasDate then t.rows.filter (fun r => presentNonBlank r.date) else t.rows
  let rows2 :=
    if t.hasTime then
      let a := rows1.filter (fun r => presentNonBlank r.time)
      let b := if t.hasPrice then
          a.filter (fun r => numericSat (fun q => decide (0 ≤ q) && decide (q ≤ 50000)) r.price)
        else a
      let c := if t.hasQty then
          b.filter (fun r => numericSat (fun q => decide (0 ≤ q)) r.qty) else b
      let d := if t.hasLineTotal then
          c.filter (fun r => numericSat (fun q => decide (0 ≤ q)) r.lineTotal) else c
      let e := if t.hasNetTotal then
          d.filter (fun r => numericSat (fun q => decide (0 ≤ q)) r.netTotal) else d
      if t.hasPrice then
        e.filter (fun r => numericSat (fun q => decide (0 ≤ q)) r.price)
      else e
    else rows1
  { t with rows := rows2 }

/-! ## Load orchestrator (etl.py `_upsert_via_temp_table` and `load`)

Rows of the relational store are modelled as association lists from
column name to value; a table is a list of such rows. -/

abbrev DBRow := List (String × String)

/-- The value of column `c` in row `r`. -/
def getCol (r : DBRow) (c : String) : Option String :=
  (r.find? (fun p => p.1 = c)).map (fun p => p.2)

/-- The tuple of key-column values of a row, the `ON CONFLICT` match
criterion. -/
def keyTuple (keys : List String) (r : DBRow) : List (Option String) :=
  keys.map (getCol r)

/-- `DO UPDATE SET "c" = EXCLUDED."c"` for every non-key column of the
artifact column list: all non-key columns of the matched row are
overwritten with the incoming row's values; key columns are untouched. -/
def overwriteNonKey (cols keys : List String) (old new : DBRow) : DBRow :=
  old.map fun p =>
    if p.1 ∈ cols ∧ p.1 ∉ keys then (p.1, (getCol new p.1).getD p.2) else p

/-- Merge a single incoming row: a key match updates in place, no match
inserts. -/
def upsertRowDB (cols keys : List String) (tbl : List DBRow) (r : DBRow) : List DBRow :=
  if tbl.any (fun t => keyTuple keys t = keyTuple keys r) then
    tbl.map fun t =>
      if keyTuple keys t = keyTuple keys r then overwriteNonKey cols keys t r else t
  else tbl ++ [r]

/-- etl.py `_upsert_via_temp_table`: with key columns, the staged rows
are merged one by one (update on key match, insert otherwise); with no
key columns, a plain `INSERT … SELECT` appends every staged row. -/
def upsert_via_temp_table (cols keys : List String)
    (tbl : List DBRow) (staged : List DBRow) : List DBRow :=
  if keys.isEmpty then tbl ++ staged
  else staged.foldl (upsertRowDB cols keys) tbl

/-- The fixed merge order of `load`
(`order = [...]` just before `_bulk_upsert_from_staging_etl`). -/
def mergeOrder : List String :=
  ["time_dimension", "current_product_dimension", "history_product_dimension",
   "transaction_records", "fact_transaction_dimension"]

/-- A staged artifact of the load plan. -/
structure Artifact where
  table : String
  cols : List String
  keys : List String
  rows : List DBRow
deriving DecidableEq, Repr

/-- `plan = [a for name in order for a in artifacts if a["table"] == name]`. -/
def mkPlan (artifacts : List Artifact) : List Artifact :=
  (mergeOrder.map (fun n => artifacts.filter (fun a => a.table = n))).flatten

/-- `_bulk_upsert_from_staging_etl`: run the merge steps in plan order;
the first failing step aborts the remainder and its exception
propagates.  Each step's outcome is supplied as an `Except` value. -/
def runMerges : List (Except String Unit) → Except String Unit
  | [] => Except.ok ()
  | s :: rest =>
    match s with
    | Except.ok _ => runMerges rest
    | Except.error e => Except.error e

/-- The tail of etl.py `load`: `try: _bulk_upsert_from_staging_etl(…);
_staging_delete_prefix_etl(run_prefix) except: raise`.  Returns whether
the run-scoped buffer prefix was deleted, and the propagated outcome. -/
def loadFinalize (merges : List (Except String Unit)) : Bool × Except String Unit :=
  match runMerges merges with
  | Except.ok _ => (true, Except.ok ())
  | Except.error e => (false, Except.error e)

/-! ## Stage orchestration (run_all.py `execute_pipeline`, etl.py `main`) -/

/-- run_all.py `execute_pipeline`: run the stage functions in order;
a raising stage aborts the remaining stages and its exception is
re-raised.  Returns the names of the stages that were invoked and the
overall outcome.  Each stage's behaviour when invoked is supplied as an
`Except` value. -/
def execute_pipeline : List (String × Except String Unit) → List String × Except String Unit
  | [] => ([], Except.ok ())
  | (n, r) :: rest =>
    match r with
    | Except.ok _ =>
      let out := execute_pipeline rest
      (n :: out.1, out.2)
    | Except.error e => ([n], Except.error e)

/-- etl.py `main`: the whole stage body (extract → transform → load →
landing cleanup) runs inside `try: … except Exception: print/traceback`,
so whatever the body does, `main` returns normally.  The body's outcome
is supplied as an `Except` value. -/
def etl_main (body : Except String Unit) : Except String Unit :=
  match body with
  | Except.ok _ => Except.ok ()
  | Except.error _ => Except.ok ()

/-! ## Trigger guard (observer/handler.py `PipelineEventHandler.on_created`)

The handler's effects are modelled as an action trace. -/

inductive GuardAction where
  | acquireFail : GuardAction
  | acquire : GuardAction
  | settleWait : GuardAction
  | runPipeline (outcome : Except String Unit) : GuardAction
  | logFailure (e : String) : GuardAction
  | releaseLock : GuardAction
  | removeMarker : GuardAction
deriving Repr

/-- `on_created`: directory events and files not named `complete` are
ignored; a failed non-blocking acquire deletes the marker and returns;
otherwise the pipeline runs once inside `try/except`, and the
`finally` block releases the lock and then deletes the marker whether
the pipeline returned or raised.  `lockAvailable` is the state of the
non-blocking acquire; `pipeline` is what `run_all.execute_pipeline`
does when invoked. -/
def on_created (isDirectory : Bool) (basename : String) (lockAvailable : Bool)
    (pipeline : Except String Unit) : List GuardAction :=
  if isDirectory then []
  else if basename ≠ "complete" then []
  else if !lockAvailable then [GuardAction.acquireFail, GuardAction.removeMarker]
  else
    match pipeline with
    | Except.ok _ =>
      [GuardAction.acquire, GuardAction.settleWait, GuardAction.runPipeline (Except.ok ()),
       GuardAction.releaseLock, GuardAction.removeMarker]
    | Except.error e =>
      [GuardAction.acquire, GuardAction.settleWait, GuardAction.runPipeline (Except.error e),
       GuardAction.logFailure e, GuardAction.releaseLock, GuardAction.removeMarker]

/-- Number of pipeline invocations in a trace. -/
def runCount (t : List GuardAction) : Nat :=
  (t.filter fun a => match a with | GuardAction.runPipeline _ => true | _ => false).length

/-- Number of lock acquisitions in a trace. -/
def acquireCount (t : List GuardAction) : Nat :=
  (t.filter fun a => match a with | GuardAction.acquire => true | _ => false).length

/-- Number of lock releases in a trace. -/
def releaseCount (t : List GuardAction) : Nat :=
  (t.filter fun a => match a with | GuardAction.releaseLock => true | _ => false).length

/-! ## SCD invariant and history-table merge

`scdInvariant` states the section-8 invariants for the rows of one
product: exactly one row is flagged current, and the record versions
form a gapless ascending sequence starting at 1 (equivalently: they are
pairwise distinct and all lie in `[1, count]`). -/

def gaplessFrom1 (vs : List Nat) : Prop :=
  vs.Nodup ∧ ∀ v ∈ vs, 1 ≤ v ∧ v ≤ vs.length

def scdInvariant (l : List ProductVersion) : Prop :=
  (l.filter fun v => v.is_current).length = 1
  ∧ gaplessFrom1 (l.map fun v => v.record_version)

/-- Merging one emitted history row into the stored
`history_product_dimension` rows on the table's key
`(product_id, record_version)` — the `ProductVersion`-level reading of
the load phase's keyed upsert. -/
def upsertPV (tbl : List ProductVersion) (v : ProductVersion) : List ProductVersion :=
  if tbl.any fun t =>
      t.product_id = v.product_id ∧ t.record_version = v.record_version then
    tbl.map fun t =>
      if t.product_id = v.product_id ∧ t.record_version = v.record_version then v else t
  else tbl ++ [v]

def upsertAllPV (tbl : List ProductVersion) (vs : List ProductVersion) : List ProductVersion :=
  vs.foldl upsertPV tbl

/-- The key triple of a transform-stage row. -/
def keyTriple (r : CombinedRow) : String × String × ℚ :=
  (r.product_id, r.product_name, r.price)

/-- First-occurrence selection written from the spec's words: a row is
kept exactly when its key triple is not among the key triples seen so
far ("one row per distinct `(product_id, product_name, price)` tuple,
by order of first appearance").  Compared against the builder's
row-level `drop_duplicates` in the C7 theorem. -/
def specDistinctFirstGo (seen : List (String × String × ℚ)) :
    List CombinedRow → List CombinedRow
  | [] => []
  | r :: rs =>
    if seen.contains (keyTriple r) then specDistinctFirstGo seen rs
    else r :: specDistinctFirstGo (seen ++ [keyTriple r]) rs

def specDistinctFirst (l : List CombinedRow) : List CombinedRow :=
  specDistinctFirstGo [] l

/-! ## Claims C6 and C10: category and costing -/

example : compute_parent_sku "ICED CARAMEL LATTE 16OZ" = "CARAMEL-LATTE" := by decide

example : compute_parent_sku "GRILLED CHICKEN" = "GRILLED-CHICKEN" := by decide

/-- C6, counterexample: the spec claims the drink-id override applies
"regardless of which branch the name-based rules selected (including
the OTHERS and EXTRA branches)", i.e. `categorySpecClaimed`; but on the
name "CHARGING" (an others-trigger) with drink id "DKS-1" the code
returns "OTHERS", not "DRINK". -/
theorem c6_id_override_counterexample :
    infer_category "CHARGING" "DKS-1" = "OTHERS"
    ∧ categorySpecClaimed "CHARGING" "DKS-1" = "DRINK"
    ∧ infer_category "CHARGING" "EXTRA EGG" = "OTHERS"
    ∧ infer_category "CHARGING" "DKS-1" ≠ categorySpecClaimed "CHARGING" "DKS-1" := by
  refine ⟨by decide, by decide, by decide, by decide⟩

/-- C6, amended: the name-based rules are as claimed (OTHERS triggers,
else EXTRA triggers, else drink-keyword token → DRINK, else FOOD), and
the `DRNKS`/`DKS` product-id override to DRINK applies only when the
name-based result was DRINK or FOOD — the OTHERS and EXTRA branches
return early, before the override.  The spec's three worked examples
hold as stated. -/
theorem c6_category_amended :
    (∀ name id, infer_category name id = categorySpecAmended name id)
    ∧ infer_category "BOTTLED WATER" "FDS-1" = "EXTRA"
    ∧ infer_category "HOT MOCHA 12OZ" "DKS-1" = "DRINK"
    ∧ infer_category "GRILLED CHICKEN" "FDS-2" = "FOOD" := by
  refine ⟨fun name id => ?_, by decide, by decide, by decide⟩
  cases hO : othersHit (upperAscii name) <;>
    cases hE : extraHit (upperAscii name) <;>
    cases hT : drinkTokenHit (upperAscii name) <;>
    cases hI : drinkIdHit (upperAscii id) <;>
    simp [infer_category, categorySpecAmended, hO, hE, hT, hI]

/-- C10: for a DRINK product with a non-null price, a costing lookup
that returns `None` or a cost of exactly `0` (both falsy in the
source's `if cost:`) falls back to `round(price * 0.60, 2)`; the
looked-up zero never becomes the product cost. -/
theorem c10_zero_cost_falls_back (costLookup : String → Option ℚ)
    (name : String) (p : ℚ)
    (h : costLookup name = none ∨ costLookup name = some 0) :
    calculate_product_cost costLookup name "DRINK" (some p)
      = some (round2 (p * (60 / 100))) := by
  rcases h with h | h <;> simp [calculate_product_cost, h]

/-- C10 witness: a lookup returning exactly 0 for a 10.00-priced drink
yields the fallback cost 6.00. -/
theorem c10_witness :
    calculate_product_cost (fun _ => some 0) "ICED MOCHA" "DRINK" (some 10) = some 6 := by
  have h := c10_zero_cost_falls_back (fun _ => some 0) "ICED MOCHA" 10 (Or.inr rfl)
  rw [h]
  norm_num [round2, roundHalfEven]

/-! ## Claims C3, C4, C5: orchestration, load cleanup, trigger guard -/

/-- C3, counterexample: an exception raised inside the ETL stage does
not propagate out of the stage — `etl.main` wraps its whole body in
`try/except Exception` and returns normally — so with a failing ETL
body every downstream stage of the run is still invoked and the run
reports success. -/
theorem c3_etl_swallow_counterexample :
    etl_main (Except.error "extract failed") = Except.ok ()
    ∧ execute_pipeline
        [("ETL", etl_main (Except.error "extract failed")), ("MBA", Except.ok ()),
         ("PED", Except.ok ()), ("NLP", Except.ok ()), ("Holt-Winters", Except.ok ())]
      = (["ETL", "MBA", "PED", "NLP", "Holt-Winters"], Except.ok ()) := by
  exact ⟨rfl, rfl⟩

/-- C3, amended: if a stage function raises, `execute_pipeline` aborts
all subsequent stages and re-raises the exception to the Trigger Guard;
however the ETL stage's `main` catches every exception of its own body
and returns normally, so an exception raised inside the ETL stage never
reaches the orchestrator and the downstream stages still run. -/
theorem c3_orchestration_amended :
    (∀ (pre : List (String × Except String Unit)) (n e : String)
       (post : List (String × Except String Unit)),
       (∀ s ∈ pre, s.2 = Except.ok ()) →
       execute_pipeline (pre ++ (n, Except.error e) :: post)
         = (pre.map Prod.fst ++ [n], Except.error e))
    ∧ (∀ e, etl_main (Except.error e) = Except.ok ()) := by
  constructor
  · intro pre n e post h
    induction pre with
    | nil => rfl
    | cons s rest ih =>
      have hs : s.2 = Except.ok () := h s (by simp)
      obtain ⟨sn, sr⟩ := s
      simp only at hs
      subst hs
      have h2 := ih (fun x hx => h x (by simp [hx]))
      simp [execute_pipeline, h2]
  · intro e
    rfl

/-- C3 witness for the amended statement: a run whose second stage
raises invokes only the first two stages and propagates the error. -/
theorem c3_witness :
    execute_pipeline
        [("ETL", Except.ok ()), ("MBA", Except.error "no rules"), ("PED", Except.ok ())]
      = (["ETL", "MBA"], Except.error "no rules") := by
  have h := c3_orchestration_amended.1 [("ETL", Except.ok ())] "MBA" "no rules"
    [("PED", Except.ok ())] (by simp)
  simpa using h

/-- All merge steps succeed exactly when `runMerges` reports success. -/
theorem runMerges_eq_ok_iff (l : List (Except String Unit)) :
    runMerges l = Except.ok () ↔ ∀ m ∈ l, m = Except.ok () := by
  induction l with
  | nil => simp [runMerges]
  | cons s rest ih =>
    cases s with
    | ok u => cases u; simp [runMerges, ih]
    | error e => simp [runMerges]

/-- C4: the run-scoped staging-buffer prefix is deleted iff every
artifact in the load plan merges successfully; the outcome the load
phase propagates is exactly the merge outcome, and on any merge error
the buffer is retained and that error is re-raised to the caller. -/
theorem c4_buffer_cleanup (merges : List (Except String Unit)) :
    ((loadFinalize merges).1 = true ↔ ∀ m ∈ merges, m = Except.ok ())
    ∧ (loadFinalize merges).2 = runMerges merges
    ∧ (∀ e, runMerges merges = Except.error e →
        loadFinalize merges = (false, Except.error e)) := by
  refine ⟨?_, ?_, ?_⟩
  · rw [← runMerges_eq_ok_iff]
    cases h : runMerges merges with
    | ok u => cases u; simp [loadFinalize, h]
    | error e => simp [loadFinalize, h]
  · cases h : runMerges merges with
    | ok u => cases u; simp [loadFinalize, h]
    | error e => simp [loadFinalize, h]
  · intro e he
    simp [loadFinalize, he]

/-- C4 witness: a failing second merge retains the buffer and
propagates the error; two successful merges delete the buffer. -/
theorem c4_witness :
    loadFinalize [Except.ok (), Except.error "COPY failed"]
      = (false, Except.error "COPY failed")
    ∧ (loadFinalize [Except.ok (), Except.ok ()]).1 = true := by
  constructor
  · exact (c4_buffer_cleanup [Except.ok (), Except.error "COPY failed"]).2.2
      "COPY failed" rfl
  · exact (c4_buffer_cleanup [Except.ok (), Except.ok ()]).1.mpr (by simp)

/-- C5: for a creation event of the file named `complete`: with the
lock unavailable the handler only deletes the marker and never invokes
the pipeline; with the lock acquired the pipeline is invoked exactly
once and — whether it returns or raises — the trace ends by releasing
the lock and then deleting the marker.  In every trace the pipeline
runs at most once and only after a successful acquire, acquisitions and
releases balance (the guard never terminates holding the lock), and the
marker is always removed. -/
theorem c5_trigger_guard (lockAvailable : Bool) (pipeline : Except String Unit) :
    (lockAvailable = false →
      on_created false "complete" lockAvailable pipeline
        = [GuardAction.acquireFail, GuardAction.removeMarker]
      ∧ runCount (on_created false "complete" lockAvailable pipeline) = 0)
    ∧ (lockAvailable = true →
      runCount (on_created false "complete" lockAvailable pipeline) = 1
      ∧ ∃ pre, on_created false "complete" lockAvailable pipeline
          = pre ++ [GuardAction.releaseLock, GuardAction.removeMarker])
    ∧ acquireCount (on_created false "complete" lockAvailable pipeline)
        = releaseCount (on_created false "complete" lockAvailable pipeline)
    ∧ (runCount (on_created false "complete" lockAvailable pipeline) = 1 →
        lockAvailable = true)
    ∧ GuardAction.removeMarker ∈ on_created false "complete" lockAvailable pipeline := by
  cases lockAvailable with
  | false =>
    have htr : on_created false "complete" false pipeline
        = [GuardAction.acquireFail, GuardAction.removeMarker] := by
      simp [on_created]
    refine ⟨?_, ?_, ?_, ?_, ?_⟩
    · intro _
      exact ⟨htr, by rw [htr]; rfl⟩
    · intro h
      exact absurd h (by decide)
    · rw [htr]
      rfl
    · rw [htr]
      intro hr
      exact absurd hr (by decide)
    · rw [htr]
      simp
  | true =>
    cases pipeline with
    | ok u =>
      cases u
      have htr : on_created false "complete" true (Except.ok ())
          = [GuardAction.acquire, GuardAction.settleWait,
             GuardAction.runPipeline (Except.ok ()), GuardAction.releaseLock,
             GuardAction.removeMarker] := by
        simp [on_created]
      refine ⟨?_, ?_, ?_, ?_, ?_⟩
      · intro h
        exact absurd h (by decide)
      · intro _
        refine ⟨by rw [htr]; rfl, ?_⟩
        exact ⟨[GuardAction.acquire, GuardAction.settleWait,
          GuardAction.runPipeline (Except.ok ())], by rw [htr]; rfl⟩
      · rw [htr]
        rfl
      · intro _
        rfl
      · rw [htr]
        simp
    | error e =>
      have htr : on_created false "complete" true (Except.error e)
          = [GuardAction.acquire, GuardAction.settleWait,
             GuardAction.runPipeline (Except.error e), GuardAction.logFailure e,
             GuardAction.releaseLock, GuardAction.removeMarker] := by
        simp [on_created]
      refine ⟨?_, ?_, ?_, ?_, ?_⟩
      · intro h
        exact absurd h (by decide)
      · intro _
        refine ⟨by rw [htr]; rfl, ?_⟩
        exact ⟨[GuardAction.acquire, GuardAction.settleWait,
          GuardAction.runPipeline (Except.error e), GuardAction.logFailure e],
          by rw [htr]; rfl⟩
      · rw [htr]
        rfl
      · intro _
        rfl
      · rw [htr]
        simp

/-- C5 witness: a raising pipeline under an acquired lock still runs
exactly once, and the trace still ends with release-then-remove. -/
theorem c5_witness :
    runCount (on_created false "complete" true (Except.error "run failed")) = 1
    ∧ (∃ pre, on_created false "complete" true (Except.error "run failed")
        = pre ++ [GuardAction.releaseLock, GuardAction.removeMarker])
    ∧ runCount (on_created false "complete" false (Except.error "run failed")) = 0 := by
  refine ⟨?_, ?_, ?_⟩
  · exact ((c5_trigger_guard true (Except.error "run failed")).2.1 rfl).1
  · exact ((c5_trigger_guard true (Except.error "run failed")).2.1 rfl).2
  · exact ((c5_trigger_guard false (Except.error "run failed")).1 rfl).2

/-! ## Claim C8: bulk merge semantics and merge order -/

/-- When no table row matches the incoming row's key tuple, the row is
inserted at the end. -/
theorem upsertRowDB_not_found (cols keys : List String) (tbl : List DBRow) (r : DBRow)
    (h : ∀ t ∈ tbl, keyTuple keys t ≠ keyTuple keys r) :
    upsertRowDB cols keys tbl r = tbl ++ [r] := by
  unfold upsertRowDB
  rw [if_neg]
  simp only [List.any_eq_true, decide_eq_true_eq, not_exists]
  intro t
  simp only [not_and]
  exact fun ht => h t ht

/-- When some table row matches the incoming row's key tuple, every
matching row is overwritten in place and nothing is inserted. -/
theorem upsertRowDB_found (cols keys : List String) (tbl : List DBRow) (r : DBRow)
    (h : ∃ t ∈ tbl, keyTuple keys t = keyTuple keys r) :
    upsertRowDB cols keys tbl r
      = tbl.map fun t =>
          if keyTuple keys t = keyTuple keys r then overwriteNonKey cols keys t r else t := by
  unfold upsertRowDB
  rw [if_pos]
  simpa only [List.any_eq_true, decide_eq_true_eq] using h

/-- Reading a column off a cons cell. -/
theorem getCol_cons (q : String × String) (l : DBRow) (c : String) :
    getCol (q :: l) c = if q.1 = c then some q.2 else getCol l c := by
  by_cases h : q.1 = c <;> simp [getCol, List.find?_cons, h]

/-- `overwriteNonKey` on a cons cell. -/
theorem overwriteNonKey_cons (cols keys : List String) (pc pv : String)
    (rest : DBRow) (new : DBRow) :
    overwriteNonKey cols keys ((pc, pv) :: rest) new
      = (if pc ∈ cols ∧ pc ∉ keys then (pc, (getCol new pc).getD pv) else (pc, pv))
        :: overwriteNonKey cols keys rest new := rfl

/-- A non-key artifact column of the matched row is overwritten with
the incoming row's value. -/
theorem getCol_overwriteNonKey_upd (cols keys : List String) (old new : DBRow)
    (c v : String) (hv : getCol old c = some v) (hc : c ∈ cols) (hk : c ∉ keys) :
    getCol (overwriteNonKey cols keys old new) c = some ((getCol new c).getD v) := by
  induction old with
  | nil => simp [getCol] at hv
  | cons p rest ih =>
    obtain ⟨pc, pv⟩ := p
    rw [getCol_cons] at hv
    rw [overwriteNonKey_cons]
    by_cases hpc : pc = c
    · subst hpc
      rw [if_pos rfl] at hv
      rw [if_pos ⟨hc, hk⟩, getCol_cons, if_pos rfl]
      have hv2 : pv = v := by simpa using hv
      show some ((getCol new pc).getD pv) = some ((getCol new pc).getD v)
      rw [hv2]
    · rw [if_neg hpc] at hv
      by_cases hm : pc ∈ cols ∧ pc ∉ keys
      · rw [if_pos hm, getCol_cons, if_neg hpc]
        exact ih hv
      · rw [if_neg hm, getCol_cons, if_neg hpc]
        exact ih hv

/-- A key column of the matched row keeps its stored value. -/
theorem getCol_overwriteNonKey_keep (cols keys : List String) (old new : DBRow)
    (c v : String) (hv : getCol old c = some v) (hk : c ∈ keys) :
    getCol (overwriteNonKey cols keys old new) c = some v := by
  induction old with
  | nil => simp [getCol] at hv
  | cons p rest ih =>
    obtain ⟨pc, pv⟩ := p
    rw [getCol_cons] at hv
    rw [overwriteNonKey_cons]
    by_cases hpc : pc = c
    · subst hpc
      rw [if_pos rfl] at hv
      rw [if_neg (fun hm => hm.2 hk), getCol_cons, if_pos rfl]
      exact hv
    · rw [if_neg hpc] at hv
      by_cases hm : pc ∈ cols ∧ pc ∉ keys
      · rw [if_pos hm, getCol_cons, if_neg hpc]
        exact ih hv
      · rw [if_neg hm, getCol_cons, if_neg hpc]
        exact ih hv

/-- C8: merge semantics of `_upsert_via_temp_table` and the fixed merge
order of `load`.  (1) With no key columns every staged row is plain-
inserted.  (2) With key columns, a staged row with no key match is
inserted, and (3) one with a key match overwrites the matching row in
place without growing the table; (4) the overwrite replaces exactly the
non-key artifact columns and keeps key columns.  (5) The load plan
visits the five artifacts in the fixed order time dimension, current
product dimension, history product dimension, transaction bridge, fact
table. -/
theorem c8_load_merge :
    (∀ cols tbl staged, upsert_via_temp_table cols [] tbl staged = tbl ++ staged)
    ∧ (∀ cols keys tbl r, keys ≠ [] →
        (∀ t ∈ tbl, keyTuple keys t ≠ keyTuple keys r) →
        upsert_via_temp_table cols keys tbl [r] = tbl ++ [r])
    ∧ (∀ cols keys tbl r, keys ≠ [] →
        (∃ t ∈ tbl, keyTuple keys t = keyTuple keys r) →
        upsert_via_temp_table cols keys tbl [r]
          = (tbl.map fun t =>
              if keyTuple keys t = keyTuple keys r then overwriteNonKey cols keys t r else t)
        ∧ (upsert_via_temp_table cols keys tbl [r]).length = tbl.length)
    ∧ (∀ cols keys old new c v, getCol old c = some v →
        (c ∈ cols → c ∉ keys →
          getCol (overwriteNonKey cols keys old new) c = some ((getCol new c).getD v))
        ∧ (c ∈ keys → getCol (overwriteNonKey cols keys old new) c = some v))
    ∧ (∀ a1 a2 a3 a4 a5 : Artifact,
        a1.table = "time_dimension" → a2.table = "current_product_dimension" →
        a3.table = "history_product_dimension" → a4.table = "transaction_records" →
        a5.table = "fact_transaction_dimension" →
        (mkPlan [a1, a2, a3, a4, a5]).map (fun a => a.table) = mergeOrder
        ∧ mkPlan [a1, a2, a3, a4, a5] = [a1, a2, a3, a4, a5]) := by
  refine ⟨?_, ?_, ?_, ?_, ?_⟩
  · intro cols tbl staged
    rfl
  · intro cols keys tbl r hk h
    cases keys with
    | nil => exact absurd rfl hk
    | cons k ks =>
      show List.foldl (upsertRowDB cols (k :: ks)) tbl [r] = tbl ++ [r]
      simpa using upsertRowDB_not_found cols (k :: ks) tbl r h
  · intro cols keys tbl r hk h
    cases keys with
    | nil => exact absurd rfl hk
    | cons k ks =>
      have hfound := upsertRowDB_found cols (k :: ks) tbl r h
      constructor
      · show List.foldl (upsertRowDB cols (k :: ks)) tbl [r] = _
        simpa using hfound
      · show (List.foldl (upsertRowDB cols (k :: ks)) tbl [r]).length = tbl.length
        simp [hfound]
  · intro cols keys old new c v hv
    exact ⟨fun hcols hkeys => getCol_overwriteNonKey_upd cols keys old new c v hv hcols hkeys,
           fun hkeys => getCol_overwriteNonKey_keep cols keys old new c v hv hkeys⟩
  · intro a1 a2 a3 a4 a5 h1 h2 h3 h4 h5
    constructor
    · simp [mkPlan, mergeOrder, h1, h2, h3, h4, h5]
    · simp [mkPlan, mergeOrder, h1, h2, h3, h4, h5]

/-- C8 witness: a keyed artifact row updating an existing
`time_dimension` row in place, a fresh key being inserted, and the
five-artifact plan in its fixed order. -/
theorem c8_witness :
    upsert_via_temp_table ["time_id", "time_desc"] ["time_id"]
        [[("time_id", "H01"), ("time_desc", "old")]]
        [[("time_id", "H01"), ("time_desc", "hour 1")]]
      = [[("time_id", "H01"), ("time_desc", "hour 1")]]
    ∧ upsert_via_temp_table ["time_id", "time_desc"] ["time_id"]
        [[("time_id", "H01"), ("time_desc", "old")]]
        [[("time_id", "H02"), ("time_desc", "hour 2")]]
      = [[("time_id", "H01"), ("time_desc", "old")],
         [("time_id", "H02"), ("time_desc", "hour 2")]]
    ∧ (mkPlan [⟨"time_dimension", [], [], []⟩, ⟨"current_product_dimension", [], [], []⟩,
          ⟨"history_product_dimension", [], [], []⟩, ⟨"transaction_records", [], [], []⟩,
          ⟨"fact_transaction_dimension", [], [], []⟩]).map (fun a => a.table)
      = mergeOrder := by
  refine ⟨?_, ?_, ?_⟩
  · rw [(c8_load_merge.2.2.1 ["time_id", "time_desc"] ["time_id"]
      [[("time_id", "H01"), ("time_desc", "old")]]
      [("time_id", "H01"), ("time_desc", "hour 1")] (by decide)
      ⟨[("time_id", "H01"), ("time_desc", "old")], by simp, by decide⟩).1]
    decide
  · rw [c8_load_merge.2.1 ["time_id", "time_desc"] ["time_id"]
      [[("time_id", "H01"), ("time_desc", "old")]]
      [("time_id", "H02"), ("time_desc", "hour 2")] (by decide) (by decide)]
    rfl
  · exact (c8_load_merge.2.2.2.2 _ _ _ _ _ rfl rfl rfl rfl rfl).1

/-! ## Claim C9: transform-stage row filtering -/

/-- C9: after the product-level cleaning block of `transform` (with the
`Date` and `Time` columns present, as the claim's filters presuppose),
every retained row has a non-null non-blank `Date` and `Time`; when the
`Price` column is present its value is numeric and lies in the
inclusive range [0, 50000]; and each of `Qty`, `Line Total`,
`Net Total` and `Price` that is present is numeric and non-negative. -/
theorem c9_transform_row_filters (t : ProdTable)
    (hD : t.hasDate = true) (hT : t.hasTime = true) :
    ∀ r ∈ (transformProductFilter t).rows,
      presentNonBlank r.date = true
      ∧ presentNonBlank r.time = true
      ∧ (t.hasPrice = true →
          numericSat (fun q => decide (0 ≤ q) && decide (q ≤ 50000)) r.price = true)
      ∧ (t.hasQty = true → numericSat (fun q => decide (0 ≤ q)) r.qty = true)
      ∧ (t.hasLineTotal = true → numericSat (fun q => decide (0 ≤ q)) r.lineTotal = true)
      ∧ (t.hasNetTotal = true → numericSat (fun q => decide (0 ≤ q)) r.netTotal = true) := by
  intro r hr
  simp only [transformProductFilter, hD, hT, if_true] at hr
  cases hP : t.hasPrice <;> cases hQ : t.hasQty <;>
    cases hL : t.hasLineTotal <;> cases hN : t.hasNetTotal <;>
    simp only [hP, hQ, hL, hN, if_true, if_false, Bool.false_eq_true,
      List.mem_filter] at hr <;>
    simp_all

/-- C9 witness: in a three-row table with all six columns present, the
single surviving row (null-date and over-priced rows dropped) satisfies
the date, time and price range filters. -/
theorem c9_witness :
    presentNonBlank (some "2024-01-05") = true
    ∧ presentNonBlank (some "10:15") = true
    ∧ numericSat (fun q => decide (0 ≤ q) && decide (q ≤ 50000)) (some 120) = true := by
  have h := c9_transform_row_filters
    ⟨true, true, true, true, true, true,
     [⟨some "2024-01-05", some "10:15", some 120, some 1, some 120, some 120⟩,
      ⟨none, some "10:20", some 80, some 1, some 80, some 80⟩,
      ⟨some "2024-01-06", some "10:25", some 60000, some 1, some 60000, some 60000⟩]⟩
    rfl rfl
    ⟨some "2024-01-05", some "10:15", some 120, some 1, some 120, some 120⟩
    (by decide)
  exact ⟨h.1, h.2.1, h.2.2.1 rfl⟩

/-! ## Claim C1: incremental version rollover -/

/-- C1: for a batch-latest row of a product that already has history
(so `selectCurrent` yields the stored current version `cur`), a new
version row is appended iff the new price differs from `cur`'s price:
when it differs, the history output is exactly the prior current
version with only `is_current` flipped to false, followed by a new
version with `record_version = max(existing record_version) + 1`,
`is_current = true` and recomputed derived fields; when it is equal,
the output is exactly `cur` with only `last_transaction_datetime`
possibly advanced — and `advanceDT` changes the stored timestamp only
when a new timestamp exists and the stored one is null or older, in
which case it becomes the new timestamp. -/
theorem c1_incremental_version_rollover (costLookup : String → Option ℚ)
    (existing : List ProductVersion) (r : BatchRow) (cur : ProductVersion)
    (hcur : selectCurrent existing = some cur) (hc : cur.is_current = true) :
    (r.price ≠ cur.price →
      (processBatchRow costLookup existing r).1
        = [{ cur with is_current := false },
           { product_id := r.product_id, product_name := r.product_name,
             price := r.price, record_version := maxRv existing + 1,
             is_current := true, last_transaction_datetime := r.datetime,
             parent_sku := compute_parent_sku r.product_name,
             category := infer_category r.product_name r.product_id,
             product_cost := calculate_product_cost costLookup r.product_name
               (infer_category r.product_name r.product_id) (some r.price) }])
    ∧ (r.price = cur.price →
      (processBatchRow costLookup existing r).1
        = [{ cur with last_transaction_datetime :=
              advanceDT cur.last_transaction_datetime r.datetime }])
    ∧ (∀ o n, advanceDT o (some n) ≠ o → o = none ∨ ∃ b, o = some b ∧ b < n)
    ∧ (∀ b n, b < n → advanceDT (some b) (some n) = some n)
    ∧ (∀ o, advanceDT o none = o) := by
  refine ⟨?_, ?_, ?_, ?_, ?_⟩
  · intro hne
    simp only [processBatchRow, hcur]
    rw [if_neg hne]
    rfl
  · intro heq
    obtain ⟨pid, pname, price, rv, isc, ltd, psku, cat, cost⟩ := cur
    simp only at hc
    subst hc
    simp only [processBatchRow, hcur]
    rw [if_pos heq]
    rfl
  · intro o n h
    cases o with
    | none => exact Or.inl rfl
    | some b =>
      by_cases hbn : n > b
      · exact Or.inr ⟨b, rfl, hbn⟩
      · exact absurd (by simp [advanceDT, hbn]) h
  · intro b n hbn
    simp [advanceDT, hbn]
  · intro o
    rfl

/-- C1 witness: a price change from 5 to 6 on a product with versions
1 and 2 retires version 2 and appends version 3. -/
theorem c1_witness :
    (processBatchRow (fun _ => none)
        [⟨"P1", "COLA", 4, 1, false, some 4, "COLA", "FOOD", some 2⟩,
         ⟨"P1", "COLA", 5, 2, true, some 10, "COLA", "FOOD", some 3⟩]
        ⟨"P1", "COLA", 6, some 12⟩).1
      = [⟨"P1", "COLA", 5, 2, false, some 10, "COLA", "FOOD", some 3⟩,
         ⟨"P1", "COLA", 6, 3, true, some 12, compute_parent_sku "COLA",
           infer_category "COLA" "P1",
           calculate_product_cost (fun _ => none) "COLA"
             (infer_category "COLA" "P1") (some 6)⟩] := by
  exact (c1_incremental_version_rollover (fun _ => none)
    [⟨"P1", "COLA", 4, 1, false, some 4, "COLA", "FOOD", some 2⟩,
     ⟨"P1", "COLA", 5, 2, true, some 10, "COLA", "FOOD", some 3⟩]
    ⟨"P1", "COLA", 6, some 12⟩
    ⟨"P1", "COLA", 5, 2, true, some 10, "COLA", "FOOD", some 3⟩
    rfl rfl).1 (by norm_num)

/-! ## Claim C2: SCD invariants -/

theorem maxRv_foldl_init_le (l : List ProductVersion) (a : Nat) :
    a ≤ l.foldl (fun x v => max x v.record_version) a := by
  induction l generalizing a with
  | nil => exact le_refl a
  | cons v rest ih =>
    exact le_trans (le_max_left a v.record_version) (ih (max a v.record_version))

theorem le_maxRv_foldl (l : List ProductVersion) (t : ProductVersion) (ht : t ∈ l)
    (a : Nat) : t.record_version ≤ l.foldl (fun x v => max x v.record_version) a := by
  induction l generalizing a with
  | nil => cases ht
  | cons v rest ih =>
    rcases List.mem_cons.mp ht with h | h
    · subst h
      exact le_trans (le_max_right a t.record_version) (maxRv_foldl_init_le rest _)
    · exact ih h _

/-- Every stored record version is at most `maxRv`. -/
theorem le_maxRv (l : List ProductVersion) (t : ProductVersion) (ht : t ∈ l) :
    t.record_version ≤ maxRv l :=
  le_maxRv_foldl l t ht 0

theorem maxRv_foldl_le (l : List ProductVersion) (m a : Nat) (ha : a ≤ m)
    (h : ∀ t ∈ l, t.record_version ≤ m) :
    l.foldl (fun x v => max x v.record_version) a ≤ m := by
  induction l generalizing a with
  | nil => exact ha
  | cons v rest ih =>
    exact ih (max a v.record_version)
      (max_le ha (h v (List.mem_cons_self v rest)))
      (fun t ht => h t (List.mem_cons_of_mem v ht))

/-- `maxRv` is bounded by any common bound of the versions. -/
theorem maxRv_le (l : List ProductVersion) (m : Nat)
    (h : ∀ t ∈ l, t.record_version ≤ m) : maxRv l ≤ m :=
  maxRv_foldl_le l m 0 (Nat.zero_le m) h


/-- If some stored row shares the incoming row's key, the keyed merge
replaces and does not insert. -/
theorem upsertPV_replace (H : List ProductVersion) (c v : ProductVersion) (hcH : c ∈ H)
    (hpid : v.product_id = c.product_id) (hrv : v.record_version = c.record_version) :
    upsertPV H v = H.map fun t =>
      if t.product_id = v.product_id ∧ t.record_version = v.record_version then v else t := by
  have hany : (H.any fun t =>
      t.product_id = v.product_id ∧ t.record_version = v.record_version) = true :=
    List.any_eq_true.mpr ⟨c, hcH, by simp [hpid, hrv]⟩
  unfold upsertPV
  rw [if_pos hany]

/-- If no stored row shares the incoming row's key, the keyed merge
appends. -/
theorem upsertPV_append (H : List ProductVersion) (v : ProductVersion)
    (hno : ∀ t ∈ H,
      ¬(t.product_id = v.product_id ∧ t.record_version = v.record_version)) :
    upsertPV H v = H ++ [v] := by
  have hany : (H.any fun t =>
      t.product_id = v.product_id ∧ t.record_version = v.record_version) = false := by
    rw [List.any_eq_false]
    intro t ht
    simpa using hno t ht
  unfold upsertPV
  rw [hany]
  simp

/-- Merging the incremental builder's history output for one
batch-latest row into prior per-product history rows that satisfy the
SCD invariant (or are empty, for a brand-new product) yields rows that
satisfy the SCD invariant again. -/
theorem scd_incremental_preserved (cl : String → Option ℚ)
    (H : List ProductVersion) (r : BatchRow)
    (hinv : H = [] ∨ scdInvariant H) :
    scdInvariant (upsertAllPV H (processBatchRow cl H r).1) := by
  rcases hinv with hH | hs
  · subst hH
    have hred : upsertAllPV [] (processBatchRow cl [] r).1
        = [newProductVersion cl r 1] := rfl
    rw [hred]
    refine ⟨rfl, by simp, ?_⟩
    intro v hv
    have hv1 : v = 1 := by simpa [newProductVersion] using hv
    subst hv1
    simp
  · obtain ⟨hcur1, hnd, hbnd⟩ := hs
    obtain ⟨c, hc⟩ := List.length_eq_one.mp hcur1
    have hcH : c ∈ H ∧ c.is_current = true := by
      have hm : c ∈ H.filter (fun v => v.is_current) := by
        rw [hc]
        exact List.mem_singleton_self c
      exact List.mem_filter.mp hm
    have hsel : selectCurrent H = some c := by
      simp only [selectCurrent, hc]
    have hkey : ∀ t ∈ H, t.record_version = c.record_version → t = c := by
      intro t ht hrv
      exact List.inj_on_of_nodup_map hnd ht hcH.1 hrv
    have honly : ∀ t ∈ H, t ≠ c → t.is_current = false := by
      intro t ht htc
      by_contra hcur'
      have htf : t ∈ H.filter (fun v => v.is_current) :=
        List.mem_filter.mpr ⟨ht, by simpa using hcur'⟩
      rw [hc] at htf
      exact htc (List.mem_singleton.mp htf)
    simp only [processBatchRow, hsel]
    by_cases hpr : r.price = c.price
    · rw [if_pos hpr]
      show scdInvariant (upsertPV H (updatedCurrent c r))
      rw [upsertPV_replace H c (updatedCurrent c r) hcH.1 rfl rfl]
      constructor
      · rw [← List.countP_eq_length_filter] at hcur1
        rw [← List.countP_eq_length_filter, List.countP_map, ← hcur1]
        apply List.countP_congr
        intro t ht
        by_cases hP : t.product_id = (updatedCurrent c r).product_id
            ∧ t.record_version = (updatedCurrent c r).record_version
        · have htc : t = c := hkey t ht hP.2
          subst htc
          simp only [Function.comp_apply, if_pos hP, hcH.2]
          simp [updatedCurrent]
        · simp only [Function.comp_apply, if_neg hP]
      · have hm : ((H.map fun t =>
            if t.product_id = (updatedCurrent c r).product_id
               ∧ t.record_version = (updatedCurrent c r).record_version
            then updatedCurrent c r else t).map fun v => v.record_version)
            = H.map fun v => v.record_version := by
          rw [List.map_map]
          apply List.map_congr_left
          intro t ht
          by_cases hP : t.product_id = (updatedCurrent c r).product_id
              ∧ t.record_version = (updatedCurrent c r).record_version
          · simp only [Function.comp, if_pos hP]
            exact hP.2.symm
          · simp [Function.comp, hP]
        rw [hm]
        exact ⟨hnd, hbnd⟩
    · rw [if_neg hpr]
      show scdInvariant (upsertPV (upsertPV H (retiredCurrent c))
        (newProductVersion cl r (maxRv H + 1)))
      rw [upsertPV_replace H c (retiredCurrent c) hcH.1 rfl rfl]
      have hvers1 : ((H.map fun t =>
          if t.product_id = (retiredCurrent c).product_id
             ∧ t.record_version = (retiredCurrent c).record_version
          then retiredCurrent c else t).map fun v => v.record_version)
          = H.map fun v => v.record_version := by
        rw [List.map_map]
        apply List.map_congr_left
        intro t ht
        by_cases hP : t.product_id = (retiredCurrent c).product_id
            ∧ t.record_version = (retiredCurrent c).record_version
        · simp only [Function.comp, if_pos hP]
          exact hP.2.symm
        · simp [Function.comp, hP]
      have hcur0 : List.countP (fun v => v.is_current) (H.map fun t =>
          if t.product_id = (retiredCurrent c).product_id
             ∧ t.record_version = (retiredCurrent c).record_version
          then retiredCurrent c else t) = 0 := by
        rw [List.countP_map, List.countP_eq_zero]
        intro t ht
        by_cases hP : t.product_id = (retiredCurrent c).product_id
            ∧ t.record_version = (retiredCurrent c).record_version
        · simp [Function.comp, hP, retiredCurrent]
        · have htc : t ≠ c := fun he => hP (by rw [he]; exact ⟨rfl, rfl⟩)
          simp [Function.comp, hP, honly t ht htc]
      have hnomatch : ∀ t ∈ (H.map fun t =>
          if t.product_id = (retiredCurrent c).product_id
             ∧ t.record_version = (retiredCurrent c).record_version
          then retiredCurrent c else t),
          ¬(t.product_id = (newProductVersion cl r (maxRv H + 1)).product_id
            ∧ t.record_version = (newProductVersion cl r (maxRv H + 1)).record_version) := by
        intro t ht hco
        have hrvs : t.record_version ≤ maxRv H := by
          obtain ⟨s, hs, hst⟩ := List.mem_map.mp ht
          have hts : t.record_version = s.record_version := by
            subst hst
            by_cases hP : s.product_id = (retiredCurrent c).product_id
                ∧ s.record_version = (retiredCurrent c).record_version
            · simp only [if_pos hP]
              exact hP.2.symm
            · simp [hP]
          rw [hts]
          exact le_maxRv H s hs
        have hco2 : t.record_version = maxRv H + 1 := hco.2
        omega
      rw [upsertPV_append _ _ hnomatch]
      refine ⟨?_, ?_, ?_⟩
      · rw [← List.countP_eq_length_filter, List.countP_append, hcur0]
        rfl
      · rw [List.map_append, hvers1]
        rw [List.nodup_append]
        refine ⟨hnd, List.nodup_singleton _, ?_⟩
        intro a ha hb
        have h1 : a ≤ maxRv H := by
          obtain ⟨s, hs, hsa⟩ := List.mem_map.mp ha
          rw [← hsa]
          exact le_maxRv H s hs
        have h2 : a = maxRv H + 1 := by
          simpa [newProductVersion] using hb
        omega
      · rw [List.map_append, hvers1]
        intro v hv
        rw [List.mem_append] at hv
        have hlen : ((H.map fun v => v.record_version)
            ++ (([newProductVersion cl r (maxRv H + 1)]).map fun v => v.record_version)).length
            = H.length + 1 := by
          simp
        rw [hlen]
        rcases hv with hv | hv
        · obtain ⟨hb1, hb2⟩ := hbnd v hv
          rw [List.length_map] at hb2
          omega
        · have hv' : v = maxRv H + 1 := by
            simpa [newProductVersion] using hv
          have hmax : maxRv H ≤ H.length := by
            apply maxRv_le
            intro t ht
            have hmem : t.record_version ∈ H.map fun v => v.record_version :=
              List.mem_map_of_mem _ ht
            have := (hbnd _ hmem).2
            rwa [List.length_map] at this
          omega

/-! Full-rebuild mode machinery. -/

/-- `cumcount` numbering keeps the rows themselves in order. -/
theorem cumcountGo_map_fst (seen l : List CombinedRow) :
    (cumcountGo seen l).map (fun p => p.1) = l := by
  induction l generalizing seen with
  | nil => rfl
  | cons r rs ih => simp [cumcountGo, ih]

/-- The version numbers that `cumcount + 1` assigns to the rows of one
product form the consecutive range starting right after the number of
`seen` rows of that product. -/
theorem cumcountGo_filter_map (l seen : List CombinedRow) (pid : String) :
    (((cumcountGo seen l).filter fun p => p.1.product_id = pid).map fun p => p.2)
      = List.range' ((seen.filter fun s => s.product_id = pid).length + 1)
          ((l.filter fun s => s.product_id = pid).length) := by
  induction l generalizing seen with
  | nil => simp [cumcountGo]
  | cons r rs ih =>
    by_cases hp : r.product_id = pid
    · have hseen : ((seen ++ [r]).filter fun s => s.product_id = pid).length
          = (seen.filter fun s => s.product_id = pid).length + 1 := by
        simp [List.filter_append, hp]
      simp [cumcountGo, List.filter_cons, hp, ih (seen ++ [r]), hseen, List.range'_succ]
    · have hseen : ((seen ++ [r]).filter fun s => s.product_id = pid).length
          = (seen.filter fun s => s.product_id = pid).length := by
        simp [List.filter_append, hp]
      simp [cumcountGo, List.filter_cons, hp, ih (seen ++ [r]), hseen]

theorem dedupFirst_nodup (l : List String) : (dedupFirst l).Nodup := by
  induction l with
  | nil => exact List.nodup_nil
  | cons x xs ih =>
    rw [dedupFirst, List.nodup_cons]
    constructor
    · intro hx
      have hxx := (List.mem_filter.mp hx).2
      simp at hxx
    · exact List.Nodup.filter _ ih

theorem mem_dedupFirst (l : List String) (y : String) : y ∈ dedupFirst l ↔ y ∈ l := by
  induction l with
  | nil => simp [dedupFirst]
  | cons x xs ih =>
    rw [dedupFirst]
    by_cases hy : y = x
    · subst hy
      simp
    · simp only [List.mem_cons, List.mem_filter, ih]
      constructor
      · rintro (h | h)
        · exact Or.inl h
        · exact Or.inr h.1
      · rintro (h | h)
        · exact Or.inl h
        · exact Or.inr ⟨h, by simpa using hy⟩

/-- Filtering a `filterMap` over pairwise-distinct keys whose produced
rows carry their key: only the key's own row survives. -/
theorem filterMap_filter_single (F : String → Option ProductVersion)
    (l : List String) (hnd : l.Nodup) (pid : String) (hmem : pid ∈ l)
    (hF : ∀ x v, F x = some v → v.product_id = x)
    (v0 : ProductVersion) (h0 : F pid = some v0) :
    (l.filterMap F).filter (fun v => v.product_id = pid) = [v0] := by
  induction l with
  | nil => cases hmem
  | cons x xs ih =>
    rcases List.mem_cons.mp hmem with hx | hx
    · subst hx
      rw [List.filterMap_cons_some h0, List.filter_cons]
      rw [if_pos (by simp [hF pid v0 h0])]
      have hrest : (xs.filterMap F).filter (fun v => v.product_id = pid) = [] := by
        rw [List.filter_eq_nil_iff]
        intro b hb
        obtain ⟨y, hy, hFy⟩ := List.mem_filterMap.mp hb
        have hby : b.product_id = y := hF y b hFy
        have hyx : y ≠ pid := fun he => (List.nodup_cons.mp hnd).1 (he ▸ hy)
        simp [hby, hyx]
      rw [hrest]
    · have hxp : x ≠ pid := fun he => (List.nodup_cons.mp hnd).1 (he ▸ hx)
      cases hFx : F x with
      | none =>
        rw [List.filterMap_cons_none hFx]
        exact ih (List.nodup_cons.mp hnd).2 hx
      | some w =>
        rw [List.filterMap_cons_some hFx, List.filter_cons]
        rw [if_neg (by simp [hF x w hFx, hxp])]
        exact ih (List.nodup_cons.mp hnd).2 hx

/-- The per-product record versions of the full-rebuild history are the
consecutive range `1, …, k` where `k` counts that product's distinct
`(product_id, product_name, Price)` rows. -/
theorem full_history_versions (cl : String → Option ℚ) (rows : List CombinedRow)
    (pid : String) :
    (((create_product_dimensions_full_history cl rows).filter
        fun v => v.product_id = pid).map fun v => v.record_version)
      = List.range' 1 (((dedupTriples rows).filter fun s => s.product_id = pid).length) := by
  unfold create_product_dimensions_full_history
  rw [List.filter_map, List.map_map]
  rw [List.filter_congr (fun p _ => (rfl :
    ((fun v => decide (v.product_id = pid))
      ∘ buildHistRow cl (cumcountGo [] (dedupTriples rows))) p
    = (fun p : CombinedRow × Nat => decide (p.1.product_id = pid)) p))]
  rw [List.map_congr_left (fun p _ => (rfl :
    ((fun v : ProductVersion => v.record_version)
      ∘ buildHistRow cl (cumcountGo [] (dedupTriples rows))) p
    = (fun p : CombinedRow × Nat => p.2) p))]
  simpa using cumcountGo_filter_map (dedupTriples rows) [] pid

theorem foldl_max_range' (m : Nat) : (List.range' 1 m).foldl max 0 = m := by
  induction m with
  | zero => rfl
  | succ n ih =>
    rw [List.range'_1_concat, List.foldl_append, ih]
    show max n (1 + n) = n + 1
    omega

/-- The running maximum of the second components of a list whose
seconds are `1, …, m` is `m`. -/
theorem foldl_max_snd (L : List (CombinedRow × Nat)) (m : Nat)
    (h : L.map (fun p => p.2) = List.range' 1 m) :
    L.foldl (fun a p => max a p.2) 0 = m := by
  have hf := List.foldl_map (fun p : CombinedRow × Nat => p.2)
    (fun a b => max a b) L 0
  rw [h, foldl_max_range'] at hf
  exact hf.symm

/-- Filtering rows out of a built history commutes with filtering the
numbered source rows, because each built row carries its source row's
product id. -/
theorem hist_filter_map_general (f : CombinedRow × Nat → ProductVersion)
    (hfpid : ∀ p, (f p).product_id = p.1.product_id)
    (l : List (CombinedRow × Nat)) (pid : String) :
    (l.map f).filter (fun v => v.product_id = pid)
      = (l.filter fun p => p.1.product_id = pid).map f := by
  induction l with
  | nil => rfl
  | cons p ps ih =>
    simp only [List.map_cons, List.filter_cons]
    by_cases hp : p.1.product_id = pid
    · rw [if_pos (by simp [hfpid p, hp]), if_pos (by simp [hp]), List.map_cons, ih]
    · rw [if_neg (by simp [hfpid p, hp]), if_neg (by simp [hp]), ih]

/-- Projecting record versions out of a built history projects the
version numbers of the numbered source rows. -/
theorem map_rv_of_map (f : CombinedRow × Nat → ProductVersion)
    (hfrv : ∀ p, (f p).record_version = p.2) (l : List (CombinedRow × Nat)) :
    (l.map f).map (fun v => v.record_version) = l.map (fun p => p.2) := by
  induction l with
  | nil => rfl
  | cons p ps ih => simp [hfrv p, ih]

/-- Counting current rows of a built history via a predicate on the
numbered source rows. -/
theorem countP_cur_of_map (f : CombinedRow × Nat → ProductVersion)
    (l : List (CombinedRow × Nat)) (g : CombinedRow × Nat → Bool)
    (hfc : ∀ p ∈ l, (f p).is_current = g p) :
    List.countP (fun v => v.is_current) (l.map f) = List.countP g l := by
  induction l with
  | nil => rfl
  | cons p ps ih =>
    rw [List.map_cons, List.countP_cons, List.countP_cons,
      hfc p (List.mem_cons_self p ps),
      ih (fun q hq => hfc q (List.mem_cons_of_mem p hq))]

/-- Counting pairs by second component. -/
theorem countP_snd_eq_count (l : List (CombinedRow × Nat)) (m : Nat) :
    List.countP (fun p => decide (p.2 = m)) l = List.count m (l.map fun p => p.2) := by
  induction l with
  | nil => rfl
  | cons p ps ih =>
    by_cases hp : p.2 = m
    · simp [List.countP_cons, List.count_cons, ih, hp]
    · simp [List.countP_cons, List.count_cons, ih, hp, Ne.symm hp]

/-- The per-product restriction of the full-rebuild history, in terms
of the numbered deduplicated rows. -/
theorem full_history_filter (cl : String → Option ℚ) (rows : List CombinedRow)
    (pid : String) :
    (create_product_dimensions_full_history cl rows).filter (fun v => v.product_id = pid)
      = ((cumcountGo [] (dedupTriples rows)).filter fun p => p.1.product_id = pid).map
          (buildHistRow cl (cumcountGo [] (dedupTriples rows))) := by
  unfold create_product_dimensions_full_history
  exact hist_filter_map_general _ (fun p => rfl) _ pid

/-- In the full-rebuild history, each product has exactly one row
flagged current (provided the product occurs at all). -/
theorem full_history_current_count (cl : String → Option ℚ) (rows : List CombinedRow)
    (pid : String)
    (hm : 0 < ((dedupTriples rows).filter fun s => s.product_id = pid).length) :
    (((create_product_dimensions_full_history cl rows).filter
        fun v => v.product_id = pid).filter fun v => v.is_current).length = 1 := by
  rw [full_history_filter]
  have hv2 : (((cumcountGo [] (dedupTriples rows)).filter
      fun p => p.1.product_id = pid).map fun p => p.2)
      = List.range' 1 (((dedupTriples rows).filter fun s => s.product_id = pid).length) := by
    simpa using cumcountGo_filter_map (dedupTriples rows) [] pid
  rw [← List.countP_eq_length_filter]
  rw [countP_cur_of_map _ _
      (fun p => decide (p.2 = ((dedupTriples rows).filter
        fun s => s.product_id = pid).length)) ?hfc]
  case hfc =>
    intro p hp
    have hpid : p.1.product_id = pid := by
      simpa using (List.mem_filter.mp hp).2
    show decide (p.2 = ((cumcountGo [] (dedupTriples rows)).filter fun q =>
      q.1.product_id = p.1.product_id).foldl (fun a q => max a q.2) 0) = _
    rw [hpid]
    rw [foldl_max_snd _ _ hv2]
  rw [countP_snd_eq_count, hv2]
  exact List.count_eq_one_of_mem (List.nodup_range' 1 _) (by simp; omega)

/-- C2: per product, the Dimension Builder's history output satisfies
the SCD invariants — exactly one row with `is_current = true` and a
gapless ascending `record_version` sequence starting at 1.  In full-
rebuild mode this holds of the history table itself for every product
it mentions; in incremental mode it holds of the stored history after
merging the builder's output rows on `(product_id, record_version)`,
assuming the fetched prior history (all rows of the batch row's
product) already satisfied the invariant or was empty. -/
theorem c2_scd_invariants :
    (∀ (cl : String → Option ℚ) (rows : List CombinedRow) (pid : String),
       pid ∈ (create_product_dimensions_full_history cl rows).map (fun v => v.product_id) →
       scdInvariant ((create_product_dimensions_full_history cl rows).filter
         fun v => v.product_id = pid))
    ∧ (∀ (cl : String → Option ℚ) (H : List ProductVersion) (r : BatchRow),
       (∀ v ∈ H, v.product_id = r.product_id) →
       (H = [] ∨ scdInvariant H) →
       scdInvariant (upsertAllPV H (processBatchRow cl H r).1)) := by
  constructor
  · intro cl rows pid hmem
    have hm : 0 < ((dedupTriples rows).filter fun s => s.product_id = pid).length := by
      obtain ⟨v, hv, hvid⟩ := List.mem_map.mp hmem
      unfold create_product_dimensions_full_history at hv
      obtain ⟨p, hp, hb⟩ := List.mem_map.mp hv
      have hpid : p.1.product_id = pid := by
        rw [← hvid, ← hb]
        rfl
      have hpL : p ∈ (cumcountGo [] (dedupTriples rows)).filter
          (fun p => p.1.product_id = pid) :=
        List.mem_filter.mpr ⟨hp, by simp [hpid]⟩
      have hlen : 0 < ((cumcountGo [] (dedupTriples rows)).filter
          (fun p => p.1.product_id = pid)).length :=
        List.length_pos.mpr (List.ne_nil_of_mem hpL)
      have hlfix : ((cumcountGo [] (dedupTriples rows)).filter
          (fun p => p.1.product_id = pid)).length
          = ((dedupTriples rows).filter fun s => s.product_id = pid).length := by
        have h2 := congrArg List.length
          (by simpa using cumcountGo_filter_map (dedupTriples rows) [] pid)
        simpa using h2
      rw [hlfix] at hlen
      exact hlen
    refine ⟨full_history_current_count cl rows pid hm, ?_, ?_⟩
    · rw [full_history_versions cl rows pid]
      exact List.nodup_range' 1 _
    · rw [full_history_versions cl rows pid]
      intro v hv
      rw [List.mem_range'_1] at hv
      simp only [List.length_range']
      omega
  · intro cl H r _ hinv
    exact scd_incremental_preserved cl H r hinv

/-- C2 witness: the full-rebuild history of a three-row table satisfies
the invariant for product "P", and merging an incremental price-change
rollover into a one-version history keeps the invariant. -/
theorem c2_witness :
    scdInvariant ((create_product_dimensions_full_history (fun _ => none)
        [⟨"P", "A", 1, some 1⟩, ⟨"P", "A", 2, some 2⟩, ⟨"Q", "B", 3, some 1⟩]).filter
      fun v => v.product_id = "P")
    ∧ scdInvariant (upsertAllPV
        [⟨"P1", "COLA", 5, 1, true, some 4, "COLA", "FOOD", some 3⟩]
        (processBatchRow (fun _ => none)
          [⟨"P1", "COLA", 5, 1, true, some 4, "COLA", "FOOD", some 3⟩]
          ⟨"P1", "COLA", 7, some 9⟩).1) := by
  constructor
  · exact c2_scd_invariants.1 (fun _ => none)
      [⟨"P", "A", 1, some 1⟩, ⟨"P", "A", 2, some 2⟩, ⟨"Q", "B", 3, some 1⟩] "P"
      (by decide)
  · exact c2_scd_invariants.2 (fun _ => none)
      [⟨"P1", "COLA", 5, 1, true, some 4, "COLA", "FOOD", some 3⟩]
      ⟨"P1", "COLA", 7, some 9⟩ (by decide) (Or.inr ⟨by decide, by decide, by decide⟩)

/-! ## Claim C7: full-rebuild builder -/

/-- The builder's row-level duplicate test agrees with membership of
the key triple among the seen keys. -/
theorem any_conj_eq_contains (seen : List CombinedRow) (r : CombinedRow) :
    (seen.any fun s => s.product_id = r.product_id
      ∧ s.product_name = r.product_name ∧ s.price = r.price)
      = (seen.map keyTriple).contains (keyTriple r) := by
  induction seen with
  | nil => rfl
  | cons s ss ih =>
    rw [List.any_cons, List.map_cons, List.contains_cons, ih]
    congr 1
    rw [Bool.eq_iff_iff]
    simp only [decide_eq_true_eq, beq_iff_eq, keyTriple, Prod.mk.injEq]
    constructor
    · rintro ⟨h1, h2, h3⟩
      exact ⟨h1.symm, h2.symm, h3.symm⟩
    · rintro ⟨h1, h2, h3⟩
      exact ⟨h1.symm, h2.symm, h3.symm⟩

/-- The builder's `drop_duplicates` refines the spec's first-occurrence
selection. -/
theorem dedupTriplesGo_spec (l seen : List CombinedRow) :
    dedupTriplesGo seen l = specDistinctFirstGo (seen.map keyTriple) l := by
  induction l generalizing seen with
  | nil => rfl
  | cons r rs ih =>
    rw [dedupTriplesGo, specDistinctFirstGo, any_conj_eq_contains]
    by_cases h : ((seen.map keyTriple).contains (keyTriple r)) = true
    · rw [if_pos h, if_pos h, ih seen]
    · rw [if_neg h, if_neg h, ih (seen ++ [r])]
      rw [List.map_append]
      rfl

/-- The built history projects, triple-wise, to the deduplicated rows. -/
theorem map_triple_of_build (cl : String → Option ℚ)
    (nb l : List (CombinedRow × Nat)) :
    ((l.map (buildHistRow cl nb)).map fun v => (v.product_id, v.product_name, v.price))
      = (l.map fun p => p.1).map keyTriple := by
  induction l with
  | nil => rfl
  | cons p ps ih =>
    rw [List.map_cons, List.map_cons, List.map_cons, List.map_cons, ih]
    rfl

/-- C7, counterexample: with two rows of one product whose last row has
a null `DateTime`, the current projection's single row mixes columns —
price from the last row but `last_transaction_datetime` from the
earlier row (pandas `groupby().last()` takes the last **non-null**
entry per column) — so it is not "the last row of that product's group
in natural row order". -/
theorem c7_groupby_last_counterexample :
    (create_product_dimensions_full_current (fun _ => none)
        [⟨"P", "A", 1, some 5⟩, ⟨"P", "A", 2, none⟩]).map
      (fun v => (v.product_name, v.price, v.last_transaction_datetime,
        v.record_version, v.is_current))
      = [("A", (2 : ℚ), some 5, 1, true)]
    ∧ ([(⟨"P", "A", 1, some 5⟩ : CombinedRow), ⟨"P", "A", 2, none⟩].getLast?.map
        fun r => r.datetime) = some none
    ∧ ∀ v ∈ create_product_dimensions_full_current (fun _ => none)
        [⟨"P", "A", 1, some 5⟩, ⟨"P", "A", 2, none⟩],
        v.last_transaction_datetime ≠ none := by
  refine ⟨by decide, by decide, by decide⟩

/-- C7, amended: per product, the current projection has exactly one
row, whose `product_name` and `Price` come from the product's last row
in natural row order and whose `last_transaction_datetime` is the last
non-null `DateTime` of the group (pandas `groupby().last()` semantics),
with `record_version = 1` and `is_current = true`; the history output
has one row per distinct `(product_id, product_name, Price)` tuple in
first-appearance order, its per-product versions are `1, …, k` in order
of first appearance, and a row is flagged current exactly when it
carries its product's maximum version `k`. -/
theorem c7_full_rebuild_amended :
    (∀ (cl : String → Option ℚ) (rows : List CombinedRow) (pid : String)
       (g : List CombinedRow) (last : CombinedRow),
       rows.filter (fun s => s.product_id = pid) = g →
       g.getLast? = some last →
       (create_product_dimensions_full_current cl rows).filter
           (fun v => v.product_id = pid)
         = [⟨pid, last.product_name, last.price, 1, true,
             lastSome (g.map fun s => s.datetime),
             compute_parent_sku last.product_name,
             infer_category last.product_name pid,
             calculate_product_cost cl last.product_name
               (infer_category last.product_name pid) (some last.price)⟩])
    ∧ (∀ rows, dedupTriples rows = specDistinctFirst rows)
    ∧ (∀ (cl : String → Option ℚ) (rows : List CombinedRow),
       ((create_product_dimensions_full_history cl rows).map
           fun v => (v.product_id, v.product_name, v.price))
         = (dedupTriples rows).map keyTriple)
    ∧ (∀ (cl : String → Option ℚ) (rows : List CombinedRow) (pid : String),
       (((create_product_dimensions_full_history cl rows).filter
           fun v => v.product_id = pid).map fun v => v.record_version)
         = List.range' 1 (((dedupTriples rows).filter
             fun s => s.product_id = pid).length))
    ∧ (∀ (cl : String → Option ℚ) (rows : List CombinedRow) (pid : String),
       ∀ v ∈ (create_product_dimensions_full_history cl rows).filter
           (fun v => v.product_id = pid),
         (v.is_current = true ↔ v.record_version
           = ((dedupTriples rows).filter fun s => s.product_id = pid).length)) := by
  refine ⟨?_, ?_, ?_, ?_, ?_⟩
  · intro cl rows pid g last hg hlast
    unfold create_product_dimensions_full_current
    apply filterMap_filter_single _ _ (dedupFirst_nodup _) pid
    · rw [mem_dedupFirst]
      have hlg : last ∈ g := List.mem_of_getLast?_eq_some hlast
      rw [← hg] at hlg
      obtain ⟨hlr, hlp⟩ := List.mem_filter.mp hlg
      exact List.mem_map.mpr ⟨last, hlr, by simpa using hlp⟩
    · intro x v h
      obtain ⟨l0, _, hb⟩ := Option.map_eq_some'.mp h
      rw [← hb]
    · simp only [hg, hlast, Option.map_some']
  · intro rows
    exact dedupTriplesGo_spec rows []
  · intro cl rows
    unfold create_product_dimensions_full_history
    rw [map_triple_of_build, cumcountGo_map_fst]
  · intro cl rows pid
    exact full_history_versions cl rows pid
  · intro cl rows pid v hv
    rw [full_history_filter] at hv
    obtain ⟨p, hp, hb⟩ := List.mem_map.mp hv
    have hv2 : (((cumcountGo [] (dedupTriples rows)).filter
        fun p => p.1.product_id = pid).map fun p => p.2)
        = List.range' 1 (((dedupTriples rows).filter
            fun s => s.product_id = pid).length) := by
      simpa using cumcountGo_filter_map (dedupTriples rows) [] pid
    have hppid : p.1.product_id = pid := by
      simpa using (List.mem_filter.mp hp).2
    subst hb
    have hcur : (buildHistRow cl (cumcountGo [] (dedupTriples rows)) p).is_current
        = decide (p.2 = ((dedupTriples rows).filter
            fun s => s.product_id = pid).length) := by
      show decide (p.2 = ((cumcountGo [] (dedupTriples rows)).filter fun q =>
        q.1.product_id = p.1.product_id).foldl (fun a q => max a q.2) 0) = _
      rw [hppid]
      rw [foldl_max_snd _ _ hv2]
    rw [hcur]
    show (decide _ = true) ↔ p.2 = _
    simp

/-- C7 witness: the two-row product "P" yields exactly one current row,
with name/price from the last row and the last non-null timestamp. -/
theorem c7_witness :
    (create_product_dimensions_full_current (fun _ => none)
        [⟨"P", "A", 1, some 5⟩, ⟨"P", "A", 2, none⟩]).filter
        (fun v => v.product_id = "P")
      = [⟨"P", "A", 2, 1, true,
          lastSome ([(⟨"P", "A", 1, some 5⟩ : CombinedRow),
            ⟨"P", "A", 2, none⟩].map fun s => s.datetime),
          compute_parent_sku "A", infer_category "A" "P",
          calculate_product_cost (fun _ => none) "A"
            (infer_category "A" "P") (some 2)⟩] := by
  exact c7_full_rebuild_amended.1 (fun _ => none)
    [⟨"P", "A", 1, some 5⟩, ⟨"P", "A", 2, none⟩] "P"
    [⟨"P", "A", 1, some 5⟩, ⟨"P", "A", 2, none⟩] ⟨"P", "A", 2, none⟩
    (by decide) rfl
